import Mathlib

/-!
Verification of the VapeCrawler product-sorting engine (`VapeSort.py` and
`module/MariaDBConnector.py`) against its natural-language specification.

The Python source is shallowly embedded: strings become `List Char` / `String`,
Python `re.sub` substitutions become explicit scanning functions on character
lists, the MariaDB tables become in-memory lists of rows inside a `DBState`,
and floating-point arithmetic is modelled exactly over `ℚ`.  Python `str.lower`
is modelled on the ASCII range (`Char.toLower`), and `\s` as the six ASCII
whitespace characters; every concrete input used below stays inside that
fragment.
-/

/-! ## Character-level utilities -/

/-- The six ASCII whitespace characters matched by Python `\s` on ASCII text. -/
def isPySpace (c : Char) : Bool :=
  c = ' ' || c = '\t' || c = '\n' || c = '\r' || c = '\x0b' || c = '\x0c'

/-- ASCII decimal digit, as matched by `\d` on the inputs handled here. -/
def isAsciiDigit (c : Char) : Bool :=
  '0' ≤ c && c ≤ '9'

/-- Python `str.lower` restricted to ASCII letters (the only case-carrying
characters occurring in the modelled titles and brand names). -/
def pyLower (cs : List Char) : List Char :=
  cs.map Char.toLower

/-- Python `str.strip`: drop leading and trailing whitespace. -/
def pyStrip (cs : List Char) : List Char :=
  ((cs.dropWhile isPySpace).reverse.dropWhile isPySpace).reverse

/-- Python `str.replace(pat, rep)` generalised with a negative lookahead:
the occurrence of `pat` is replaced only when `bad` is false on the text that
follows it (plain `str.replace` / `re.sub` on a literal pattern is the special
case `bad = fun _ => false`).  Scanning is left-to-right, non-overlapping, and
the replacement text is not rescanned, exactly as in CPython.  The `skip`
counter carries how many characters of an already-matched occurrence remain to
be consumed silently, which keeps the recursion structural on the text. -/
def replaceAllUnlessGo (pat : List Char) (bad : List Char → Bool) (rep : List Char) :
    ℕ → List Char → List Char
  | _, [] => []
  | skip + 1, _ :: cs => replaceAllUnlessGo pat bad rep skip cs
  | 0, c :: cs =>
    if pat ≠ [] ∧ pat.isPrefixOf (c :: cs) ∧ bad (List.drop pat.length (c :: cs)) = false then
      rep ++ replaceAllUnlessGo pat bad rep (pat.length - 1) cs
    else
      c :: replaceAllUnlessGo pat bad rep 0 cs

/-- Scan from the start with no pending skip. -/
def replaceAllUnless (pat : List Char) (bad : List Char → Bool) (rep : List Char)
    (l : List Char) : List Char :=
  replaceAllUnlessGo pat bad rep 0 l

/-- Python `str.replace(pat, rep)` (and `re.sub` on a literal pattern). -/
def replaceAll (pat rep : List Char) (cs : List Char) : List Char :=
  replaceAllUnless pat (fun _ => false) rep cs

/-! ## The text normalizer (`normalize_title_text`, VapeSort.py lines 118-163) -/

/-- Step `re.sub(r'\s*\|\s*.*$', '', text)`: everything from the whitespace run
preceding the first `|` to the end of the title is removed (titles carry no
embedded newlines, so `.*$` reaches the end of the string). -/
def stripSellerTag (cs : List Char) : List Char :=
  if cs.contains '|' then
    ((cs.takeWhile (fun c => c ≠ '|')).reverse.dropWhile isPySpace).reverse
  else cs

/-- Step `re.sub(r'[\[\]()]', '', text)`: bracket and parenthesis characters
are deleted, their contents kept. -/
def stripBrackets (cs : List Char) : List Char :=
  cs.filter (fun c => ¬ (c = '[' ∨ c = ']' ∨ c = '(' ∨ c = ')'))

/-- The `common_words_to_remove` list of the source.  Note that the Python
literal `"할인" "★"` is implicit string concatenation, so the element is the
single token `할인★`. -/
def commonWordsToRemove : List (List Char) :=
  ["정품".data, "새상품".data, "입호흡".data, "폐호흡".data,
   "액상샵".data, "특가".data, "할인★".data, "저농도".data]

/-- The stoplist removal loop: `for word in common_words_to_remove:
text = text.replace(word, "")`. -/
def removeCommonWords (cs : List Char) : List Char :=
  commonWordsToRemove.foldl (fun acc w => replaceAll w [] acc) cs

/-- Step `re.sub(r'^new\s+', '', text)`: a leading `new` followed by at least
one whitespace character is removed together with the whole whitespace run. -/
def stripLeadingNew (cs : List Char) : List Char :=
  if "new".data.isPrefixOf cs ∧ (cs.drop 3).head?.any isPySpace then
    (cs.drop 3).dropWhile isPySpace
  else cs

/-- Lookahead used by `re.sub(r'vip(?!쥬스)', 'vip쥬스', text)`:
the match is vetoed when the following text starts with `쥬스`. -/
def followedByJuice (cs : List Char) : Bool :=
  "쥬스".data.isPrefixOf cs

/-- Lookahead used by `re.sub(r'알케마스터(?!\s)', '알케마스터 ', text)`:
the match is vetoed when the next character is a whitespace character (at end
of string the negative lookahead succeeds). -/
def followedByWs (cs : List Char) : Bool :=
  cs.head?.any isPySpace

/-- The unit alternation of `re.sub(r'(\d+\.?\d*)\s*(mg/ml|mg|ml|%|)', '', text)`.
Alternatives are tried left to right; the final alternative is the EMPTY
string, so this consumption never fails. -/
def dropUnitVol (cs : List Char) : List Char :=
  if "mg/ml".data.isPrefixOf cs then cs.drop 5
  else if "mg".data.isPrefixOf cs then cs.drop 2
  else if "ml".data.isPrefixOf cs then cs.drop 2
  else if "%".data.isPrefixOf cs then cs.drop 1
  else cs

/-- Optional fraction part `\.?\d*` of the volume regex: a dot directly after
the integer digits is consumed together with the following digit run. -/
def volFracTail : List Char → List Char
  | '.' :: r2 => r2.dropWhile isAsciiDigit
  | l => l

/-- Everything the volume regex consumes after the leading digit of a match:
remaining integer digits, optional fraction, whitespace, and the unit (possibly
the empty alternative). -/
def volTail (rest : List Char) : List Char :=
  dropUnitVol ((volFracTail (rest.dropWhile isAsciiDigit)).dropWhile isPySpace)

/-- Step `re.sub(r'(\d+\.?\d*)\s*(mg/ml|mg|ml|%|)', '', text)`.  At every digit
the engine consumes the maximal digit run, an optional dot with following
digits, a maximal whitespace run and then the first matching unit alternative
— which may be the empty one, so the whole consumed span is deleted whether or
not a unit follows.  No backtracking is ever needed because the empty
alternative always succeeds.  `volTail cs` is the suffix of `cs` left after
the match, so `cs.length - (volTail cs).length` characters are consumed
silently via the `skip` counter. -/
def stripVolumeUnitsGo : ℕ → List Char → List Char
  | _, [] => []
  | skip + 1, _ :: cs => stripVolumeUnitsGo skip cs
  | 0, c :: cs =>
    if isAsciiDigit c then stripVolumeUnitsGo (cs.length - (volTail cs).length) cs
    else c :: stripVolumeUnitsGo 0 cs

/-- Scan from the start with no pending skip. -/
def stripVolumeUnits (l : List Char) : List Char :=
  stripVolumeUnitsGo 0 l

/-- The unit alternation of the nicotine regex
`(mg/ml|mg|%|니코틴|s-nic|rs-nic)`: it has NO empty alternative, so the result
is `none` when no alternative matches. -/
def dropUnitNic (cs : List Char) : Option (List Char) :=
  if "mg/ml".data.isPrefixOf cs then some (cs.drop 5)
  else if "mg".data.isPrefixOf cs then some (cs.drop 2)
  else if "%".data.isPrefixOf cs then some (cs.drop 1)
  else if "니코틴".data.isPrefixOf cs then some (cs.drop 3)
  else if "s-nic".data.isPrefixOf cs then some (cs.drop 5)
  else if "rs-nic".data.isPrefixOf cs then some (cs.drop 6)
  else none

/-- Optional fraction `(\.\d+)?` of the nicotine regex: consumed only when the
dot is followed by at least one digit, otherwise nothing is consumed. -/
def nicFracTail : List Char → List Char
  | '.' :: r2 =>
    if (r2.takeWhile isAsciiDigit) ≠ [] then r2.dropWhile isAsciiDigit else '.' :: r2
  | l => l

/-- Everything the nicotine regex consumes after the leading digit of a match,
when one of the (mandatory) concentration markers follows; `none` when the
match fails at this position. -/
def nicTail (rest : List Char) : Option (List Char) :=
  dropUnitNic ((nicFracTail (rest.dropWhile isAsciiDigit)).dropWhile isPySpace)

/-- Step `re.sub(r'(\d+(\.\d+)?)\s*(mg/ml|mg|%|니코틴|s-nic|rs-nic)', '', text)`.
A number (maximal digit run, optional dot followed by at least one digit) and
the following whitespace are deleted only when one of the concentration
markers follows; otherwise no match starts at this position and scanning
advances one character (shorter digit runs or dropping the fraction cannot
rescue the match, since every alternative starts with a non-digit, non-dot
character).  On a successful match `nicTail cs` is the suffix left after it,
consumed silently via the `skip` counter. -/
def stripNicotineGo : ℕ → List Char → List Char
  | _, [] => []
  | skip + 1, _ :: cs => stripNicotineGo skip cs
  | 0, c :: cs =>
    if isAsciiDigit c then
      match nicTail cs with
      | some rest2 => stripNicotineGo (cs.length - rest2.length) cs
      | none => c :: stripNicotineGo 0 cs
    else
      c :: stripNicotineGo 0 cs

/-- Scan from the start with no pending skip. -/
def stripNicotine (l : List Char) : List Char :=
  stripNicotineGo 0 l

/-- Step `re.sub(r'\s+', ' ', text)`: every maximal whitespace run becomes a
single space; the rest of the run after the first whitespace character is
consumed silently via the `skip` counter. -/
def collapseWsGo : ℕ → List Char → List Char
  | _, [] => []
  | skip + 1, _ :: cs => collapseWsGo skip cs
  | 0, c :: cs =>
    if isPySpace c then
      ' ' :: collapseWsGo (cs.length - (cs.dropWhile isPySpace).length) cs
    else c :: collapseWsGo 0 cs

/-- Scan from the start with no pending skip. -/
def collapseWs (l : List Char) : List Char :=
  collapseWsGo 0 l

/-- First half of the `normalize_title_text` pipeline (lines 122-150):
lowercase, seller-tag removal, bracket removal, stoplist removal, the brand
and product-name substitutions, and the leading-`new` removal, step for step
in source order. -/
def normalizeHead (s : String) : List Char :=
  let t := pyLower s.data
  let t := stripSellerTag t
  let t := stripBrackets t
  let t := removeCommonWords t
  let t := replaceAll "juice box".data "juicebox".data t
  let t := replaceAll "플렉스 x".data "플렉스x".data t
  let t := replaceAll "nasty".data "네스티".data t
  let t := replaceAll "must".data "머스트".data t
  let t := replaceAllUnless "vip".data followedByJuice "vip쥬스".data t
  let t := replaceAllUnless "알케마스터".data followedByWs "알케마스터 ".data t
  let t := replaceAll "레인보우 리퀴드".data "레인보우리퀴드".data t
  let t := replaceAll "더 블랙".data "더블랙".data t
  let t := replaceAll "blvk".data "블랙유니콘".data t
  let t := replaceAll "블랙유니콘액상 blvk".data "블랙유니콘".data t
  let t := replaceAll "mint".data "민트".data t
  let t := replaceAll "fuji".data "후지".data t
  stripLeadingNew t

/-- Second half of the `normalize_title_text` pipeline (lines 152-161):
volume stripping, the ` .` and ` ,` clean-ups, nicotine stripping, whitespace
collapsing and the final strip, step for step in source order. -/
def normalizeTail (t0 : List Char) : List Char :=
  let t := stripVolumeUnits t0
  let t := replaceAll " .".data [] t
  let t := replaceAll " ,".data [] t
  let t := stripNicotine t
  pyStrip (collapseWs t)

/-- `normalize_title_text` (VapeSort.py lines 118-163): the full normalization
pipeline; falsy input returns the empty string. -/
def normalize_title_text (s : String) : String :=
  if s.data = [] then "" else String.mk (normalizeTail (normalizeHead s))

/-! ## Levenshtein similarity (`compute_levenshtein_similarity`, lines 215-223) -/

/-- Standard Levenshtein edit distance (unit-cost insert/delete/substitute),
the semantics of `Levenshtein.distance` used by the source. -/
def levDist : List Char → List Char → ℕ
  | [], ys => ys.length
  | xs, [] => xs.length
  | x :: xs, y :: ys =>
    if x = y then levDist xs ys
    else 1 + min (levDist xs ys) (min (levDist xs (y :: ys)) (levDist (x :: xs) ys))
termination_by xs ys => xs.length + ys.length
decreasing_by all_goals (simp only [List.length_cons]; omega)

/-- `compute_levenshtein_similarity` on character lists.  The float arithmetic
of the source is modelled exactly over `ℚ`.  The `not str1 or not str2` check
comes FIRST, so a pair of empty strings already returns `0`; the `max_len == 0`
branch of the source is kept but is unreachable. -/
def levSim (a b : List Char) : ℚ :=
  if a = [] ∨ b = [] then 0
  else if max a.length b.length = 0 then 1
  else 1 - (levDist a b : ℚ) / (max a.length b.length : ℚ)

/-- `compute_levenshtein_similarity` (VapeSort.py lines 215-223). -/
def compute_levenshtein_similarity (s1 s2 : String) : ℚ :=
  levSim s1.data s2.data

/-! ## Brand resolution (`get_company_id_from_title`, lines 201-212) -/

/-- The brand registry: the dict built by `get_vape_brands_from_db` keyed by
brand name, modelled as an association list in dict insertion order
(`name ↦ id`). -/
abbrev BrandList := List (String × ℕ)

/-- Python's `pat in s` substring test: `pat` occurs contiguously in `s`
(the empty pattern occurs in every string). -/
def isSubstr (pat : List Char) : List Char → Bool
  | [] => pat = ([] : List Char)
  | c :: rest => pat.isPrefixOf (c :: rest) || isSubstr pat rest

/-- The `for brand_name, brand_info in known_brands.items()` loop: return the
id of the first brand whose lowercased name occurs as a substring
(`in` operator) of the normalized title; default 1 when no brand matches. -/
def brandLoop (normalizedTitle : List Char) : BrandList → ℕ
  | [] => 1
  | (name, bid) :: rest =>
    if isSubstr (pyLower name.data) normalizedTitle then bid
    else brandLoop normalizedTitle rest

/-- `get_company_id_from_title` (VapeSort.py lines 201-212): normalize the
title, then scan the brand registry in dict insertion order. -/
def get_company_id_from_title (brands : BrandList) (title : String) : ℕ :=
  brandLoop (normalize_title_text title).data brands

/-! ## Data model of the reconciliation phase (VapeSort.py `__main__` block)

The three persisted tables become in-memory lists of rows; `fetch_one` with
`LIMIT 1` is `List.find?` in table order, `insert_data` appends a row with the
next auto-increment id, and `update_data ... 'id = %s'` maps over the table
updating the rows whose id matches. -/

/-- One scraped listing record, the uniform intermediate shape
`{title, price, url, image_url, source_file, product_type}`. -/
structure Listing where
  title : String
  price : Int
  url : String
  image_url : String
  source_file : String
  product_type : String
deriving DecidableEq

instance : Inhabited Listing := ⟨⟨"", 0, "", "", "", ""⟩⟩

/-- A row of `vapesite.vape_products`. -/
structure ProductRow where
  id : ℕ
  companyId : ℕ
  productCategoryId : ℕ
  visibleName : String
  productGroupingName : String
  imageUrl : String
deriving DecidableEq

/-- A row of `vapesite.vape_price_comparisons`. -/
structure ComparisonRow where
  id : ℕ
  productId : ℕ
  sellerId : ℕ
  sellerUrl : String
  price : Int
  originTitle : String
deriving DecidableEq

/-- A row of `vapesite.vape_price_history`.  The first-observation insert at
lines 545-551 supplies only `oldPrice`/`newPrice`, leaving `priceDifference`
and `percentageChange` to the column defaults — modelled as `none`. -/
structure HistoryRow where
  productId : ℕ
  sellerId : ℕ
  oldPrice : Int
  newPrice : Int
  priceDifference : Option Int
  percentageChange : Option ℚ
deriving DecidableEq

/-- The persisted state visible to the reconciler. -/
structure DBState where
  products : List ProductRow
  comparisons : List ComparisonRow
  histories : List HistoryRow
  nextProductId : ℕ
  nextComparisonId : ℕ
deriving DecidableEq

/-- The seller registry of `get_vape_seller_from_db`: dict from `source_file`
key to seller id, as an association list in dict insertion order. -/
abbrev SellerList := List (String × ℕ)

/-- `seller_site_list.get(product.get('source_file', ''), {}).get('id', 1)`
(line 475): a listing whose `source_file` is not a registry key falls back to
the default id 1. -/
def sellerIdOf (sellers : SellerList) (l : Listing) : ℕ :=
  match sellers.find? (fun e => e.1 = l.source_file) with
  | some e => e.2
  | none => 1

/-- `SELECT price FROM vape_price_comparisons WHERE productId = %s ORDER BY
price ASC LIMIT 1` (line 504): the minimum price among the product's
comparison rows, `none` when the product has no row. -/
def lowestPrice (s : DBState) (pid : ℕ) : Option Int :=
  ((s.comparisons.filter (fun r => r.productId = pid)).map (fun r => r.price)).min?

/-- Which branch of the price-comparison loop body ran for a listing. -/
inductive UpsertBranch where
  | skipped
  | updatedPrice
  | updatedTitle
  | inserted
deriving DecidableEq

/-- `update_data('vapesite.vape_price_comparisons', {'price': new_price,
'sellerUrl': seller_url, 'originTitle': title}, 'id = %s', ...)` (lines
510-515): rows whose id matches get the three columns overwritten. -/
def priceUpdated (s : DBState) (rid : ℕ) (l : Listing) : DBState :=
  { s with comparisons := s.comparisons.map (fun row =>
      if row.id = rid then
        { row with price := l.price, sellerUrl := l.url, originTitle := l.title }
      else row) }

/-- `update_data('vapesite.vape_price_comparisons', {'originTitle': title},
'id = %s', ...)` (lines 535-540): rows whose id matches get only
`originTitle` overwritten. -/
def titleUpdated (s : DBState) (rid : ℕ) (l : Listing) : DBState :=
  { s with comparisons := s.comparisons.map (fun row =>
      if row.id = rid then { row with originTitle := l.title } else row) }

/-- The history row appended on a lowest-price change (lines 521-532), empty
when the minimum did not change; `percentageChange` is 0 (no division) when
the old lowest price is falsy. -/
def minChangeHistory (pid sid : ℕ) (a b : Int) : List HistoryRow :=
  if a ≠ b then
    [⟨pid, sid, a, b, some (b - a),
      some (if a ≠ 0 then ((b - a : ℤ) : ℚ) / (a : ℚ) * 100 else 0)⟩]
  else []

/-- One iteration of the `for product in products_in_group` loop
(VapeSort.py lines 473-556): resolve the seller id, look up the existing
PriceComparison row keyed on `(productId, sellerUrl, sellerId)`, and either
skip (falsy seller id), update price + record history on minimum change,
refresh `originTitle` only, or insert a fresh comparison plus a
first-observation history row. -/
def save_price_comparison (sellers : SellerList) (pid : ℕ) (s : DBState) (l : Listing) :
    DBState × UpsertBranch :=
  let sellerSiteId := sellerIdOf sellers l
  if sellerSiteId = 0 then
    -- `if not seller_site_id: ... continue` (lines 480-482)
    (s, .skipped)
  else
    match s.comparisons.find? (fun r =>
        r.productId = pid ∧ r.sellerUrl = l.url ∧ r.sellerId = sellerSiteId) with
    | some existing =>
      if existing.price ≠ l.price then
        -- price-change branch (lines 503-533)
        let oldLowest := lowestPrice s pid
        let s1 := priceUpdated s existing.id l
        let newLowest := lowestPrice s1 pid
        match oldLowest, newLowest with
        | some a, some b =>
          ({ s1 with histories := s1.histories ++ minChangeHistory pid sellerSiteId a b },
           .updatedPrice)
        | _, _ => (s1, .updatedPrice)
      else
        -- same-price branch (lines 534-540): only `originTitle` is written
        (titleUpdated s existing.id l, .updatedTitle)
    | none =>
      -- fresh comparison row plus first-observation history (lines 542-552)
      ({ s with
          comparisons := s.comparisons ++
            [⟨s.nextComparisonId, pid, sellerSiteId, l.url, l.price, l.title⟩],
          nextComparisonId := s.nextComparisonId + 1,
          histories := s.histories ++ [⟨pid, sellerSiteId, 0, l.price, none, none⟩] },
       .inserted)

/-! ## Canonical identity resolution (VapeSort.py lines 414-464) -/

/-- The `imageUrl` selection of the new-product branch (lines 440-447): the
first listing's `image_url`, or, when that is falsy, the first truthy
`image_url` among the group members (empty when none exists). -/
def selectImageUrl (group : List Listing) : String :=
  let image0 := ((group.head?).map (fun l => l.image_url)).getD ""
  if image0 = "" then
    (((group.find? (fun l => l.image_url ≠ "")).map (fun l => l.image_url)).getD image0)
  else image0

/-- Lines 416-424: scan the group for a listing whose `url` already appears in
the PriceComparison table (`WHERE sellerUrl = %s LIMIT 1`), breaking at the
first hit. -/
def urlLookup (s : DBState) (group : List Listing) : Option ComparisonRow :=
  group.findSome? (fun l => s.comparisons.find? (fun r => r.sellerUrl = l.url))

/-- The identity-resolution block of the reconciliation loop (lines 414-461):
url-based reuse, then title-key lookup, then insert.  `if grouping_product_id:`
is Python truthiness, so a stored productId of 0 falls through to the triple
lookup; inserts are modelled with the auto-increment counter (the failure
handling of the insert is the subject of `new_product_save` below). -/
def resolveIdentity (s : DBState) (group : List Listing)
    (companyId productCategoryId : ℕ) (visibleName productGroupingName : String) :
    DBState × ℕ :=
  let groupingProductId : Option ℕ := (urlLookup s group).map (fun r => r.productId)
  let truthy : Bool :=
    match groupingProductId with
    | some v => v ≠ 0
    | none => false
  let product : Option ProductRow :=
    if truthy then
      s.products.find? (fun p => p.id = groupingProductId.getD 0)
    else
      s.products.find? (fun p =>
        p.companyId = companyId ∧ p.productGroupingName = productGroupingName ∧
        p.productCategoryId = productCategoryId)
  match product with
  | some p => (s, p.id)
  | none =>
    ({ s with
        products := s.products ++
          [⟨s.nextProductId, companyId, productCategoryId, visibleName,
            productGroupingName, selectImageUrl group⟩],
        nextProductId := s.nextProductId + 1 },
     s.nextProductId)

/-- Modelled from the spec (§4.5 step 3), for comparison with
`resolveIdentity`: (a) if any listing's url exists in the PriceComparison
table, reuse that row's productId; else (b) look up by
`(companyId, productGroupingName, productCategoryId)`; else (c) insert a new
row with the image-url fallback. -/
def specIdentityChoice (s : DBState) (group : List Listing)
    (companyId productCategoryId : ℕ) (visibleName productGroupingName : String) :
    DBState × ℕ :=
  match urlLookup s group with
  | some r => (s, r.productId)
  | none =>
    match s.products.find? (fun p =>
        p.companyId = companyId ∧ p.productGroupingName = productGroupingName ∧
        p.productCategoryId = productCategoryId) with
    | some p => (s, p.id)
    | none =>
      ({ s with
          products := s.products ++
            [⟨s.nextProductId, companyId, productCategoryId, visibleName,
              productGroupingName, selectImageUrl group⟩],
          nextProductId := s.nextProductId + 1 },
       s.nextProductId)

/-! ## The new-product insert failure path (lines 438-461, MariaDBConnector
lines 162-187)

`MariaDBConnector.insert_data` runs a plain `INSERT`; a MySQL error (such as a
duplicate key) propagates as an exception out of `execute_query`.  The
connector behaviour is the external collaborator here, so it enters the model
as a function argument `ins`; the reconciler wraps the call in
`try ... except Exception: logger.error(...); exit()`. -/

/-- MySQL-level error raised by the connector. -/
inductive DBErr where
  | duplicateKey
  | other
deriving DecidableEq

/-- The column values of the attempted `vape_products` insert (line 449-455). -/
structure ProductData where
  companyId : ℕ
  productCategoryId : ℕ
  visibleName : String
  productGroupingName : String
  imageUrl : String
deriving DecidableEq

/-- The `try: ... grouping_product_id = _db.insert_data('vapesite.vape_products',
product_data) ... except Exception as e: logger.error(...); exit()` block
(lines 438-461): builds the product data (including the image-url fallback)
and calls the connector; ANY raised error becomes an immediate fatal abort
(`Except.error ()` models `exit()`), with no recovery attempt. -/
def new_product_save (ins : ProductData → Except DBErr ℕ) (group : List Listing)
    (companyId productCategoryId : ℕ) (visibleName productGroupingName : String) :
    Except Unit ℕ :=
  let data : ProductData :=
    ⟨companyId, productCategoryId, visibleName, productGroupingName, selectImageUrl group⟩
  match ins data with
  | .ok newId => .ok newId
  | .error _ => .error ()

/-! ## Similarity grouping (`group_products_by_similarity`, lines 226-315)

The thread pools are modelled by the serialized schedule in which every
submitted grouping task runs to completion, and its result is merged, before
the next one starts; the `used` set is a list with membership semantics.
Python float arithmetic is modelled over `ℚ`, and the `ZeroDivisionError`
raised by `abs(len_i - len_j) / max(len_i, len_j)` on two empty titles — as
well as the `ValueError` raised by `range(0, 0, 0)` on an empty category —
surface as `Except.error ()`. -/

/-- `abs(len_i - len_j) / max(len_i, len_j) > length_ratio` (line 245) with
the default `length_ratio = 0.3`: candidate `j` is skipped when the relative
length difference is too large. -/
def lengthDiffSkip (ti tj : List Char) : Bool :=
  ((max ti.length tj.length - min ti.length tj.length : ℕ) : ℚ) /
      ((max ti.length tj.length : ℕ) : ℚ) > 3 / 10

/-- `len(set_i.intersection(set_j)) / len(set_i.union(set_j)) >= 0.5`
(line 249): character-set Jaccard similarity at least one half. -/
def jaccardKeep (ti tj : List Char) : Bool :=
  (((ti.dedup).filter (fun c => c ∈ tj)).length : ℚ) /
      ((((ti ++ tj).dedup)).length : ℚ) ≥ 1 / 2

/-- `prefilter_candidates` (lines 238-251): walk `all_titles` with its index,
skipping on length difference, keeping on Jaccard similarity.  When both
titles are empty, `max(len_i, len_j)` is zero and the division raises
`ZeroDivisionError`. -/
def prefilterAux (ti : List Char) : List (List Char) → ℕ → Except Unit (List ℕ)
  | [], _ => .ok []
  | tj :: rest, j =>
    if max ti.length tj.length = 0 then .error ()
    else if lengthDiffSkip ti tj then prefilterAux ti rest (j + 1)
    else if jaccardKeep ti tj then
      match prefilterAux ti rest (j + 1) with
      | .error e => .error e
      | .ok js => .ok (j :: js)
    else prefilterAux ti rest (j + 1)

/-- `prefilter_candidates(title_i, all_titles)` starting at index 0. -/
def prefilter_candidates (ti : List Char) (titles : List (List Char)) :
    Except Unit (List ℕ) :=
  prefilterAux ti titles 0

/-- The claim loop of `process_product` (lines 266-272): for each candidate
`j`, skip when `j` is the seed itself, already used, or already claimed; claim
it when the cached Levenshtein similarity reaches the threshold.  The
similarity cache is semantically transparent (`levSim` is symmetric), so the
similarity is computed directly. -/
def claimLoop (θ : ℚ) (titles : List (List Char)) (i : ℕ) (used : List ℕ) :
    List ℕ → List ℕ → List ℕ
  | [], _ => []
  | j :: rest, lu =>
    if j = i ∨ j ∈ used ∨ j ∈ lu then claimLoop θ titles i used rest lu
    else if levSim (titles.getD i []) (titles.getD j []) ≥ θ then
      j :: claimLoop θ titles i used rest (j :: lu)
    else claimLoop θ titles i used rest lu

/-- `products[j]` (list indexing; indices produced by the model are always in
range). -/
def getL (products : List Listing) (j : ℕ) : Listing :=
  products.getD j default

/-- `process_product` (lines 253-274): `None` when the seed is already used,
otherwise the seed's group (seed listing followed by the claimed listings in
candidate order) together with the claimed index set. -/
def process_product (θ : ℚ) (products : List Listing) (titles : List (List Char))
    (used : List ℕ) (i : ℕ) (prodI : Listing) :
    Except Unit (Option (ℕ × List Listing × List ℕ)) :=
  if i ∈ used then .ok none
  else
    match prefilter_candidates (titles.getD i []) titles with
    | .error e => .error e
    | .ok candidates =>
      let claimed := claimLoop θ titles i used candidates []
      .ok (some (i, prodI :: claimed.map (getL products), claimed))

/-- The mutable state of `process_category`: the shared `used` set and the
accumulated groups. -/
structure GroupState where
  used : List ℕ
  groups : List (List Listing)
deriving DecidableEq

/-- Merging one completed future (lines 298-305): `used.add(i)`,
`used.update(local_used)`, `groups.append(group)`. -/
def seedStep (θ : ℚ) (products : List Listing) (titles : List (List Char))
    (st : GroupState) (pair : ℕ × Listing) : Except Unit GroupState :=
  match process_product θ products titles st.used pair.1 pair.2 with
  | .error e => .error e
  | .ok none => .ok st
  | .ok (some (i, group, localUsed)) =>
    .ok ⟨st.used ++ i :: localUsed, st.groups ++ [group]⟩

/-- The submission list of one batch (lines 290-296): the pairs
`(products.index(prod_i), prod_i)` for the batch members whose index is not in
`used` at batch start. -/
def submissionsOf (products : List Listing) (used : List ℕ) (batch : List Listing) :
    List (ℕ × Listing) :=
  (batch.filter (fun p => decide (products.findIdx (fun q => q == p) ∉ used))).map
    (fun p => (products.findIdx (fun q => q == p), p))

/-- Processing one batch under the serialized schedule. -/
def processBatch (θ : ℚ) (products : List Listing) (titles : List (List Char))
    (st : GroupState) (batch : List Listing) : Except Unit GroupState :=
  (submissionsOf products st.used batch).foldlM (seedStep θ products titles) st

/-- `[products[i:i+batch_size] for i in range(0, len(products), batch_size)]`,
fuelled to keep the recursion structural (`fuel = products.length` suffices
whenever `bs ≥ 1`). -/
def chunksF : ℕ → ℕ → List Listing → List (List Listing)
  | 0, _, _ => []
  | _ + 1, _, [] => []
  | fuel + 1, bs, l => l.take bs :: chunksF fuel bs (l.drop bs)

/-- `process_category` (lines 276-307): normalize every title once, cut the
products into batches (`batch_size = min(1000, len(products))`; an empty
category makes `range`'s step zero, a `ValueError`), then run the batches. -/
def process_category (θ : ℚ) (products : List Listing) :
    Except Unit (List (List Listing)) :=
  let titles := products.map (fun p => (normalize_title_text p.title).data)
  let batchSize := min 1000 products.length
  if batchSize = 0 then .error ()
  else
    match (chunksF products.length batchSize products).foldlM
        (processBatch θ products titles) ⟨[], []⟩ with
    | .error e => .error e
    | .ok st => .ok st.groups

/-- `group_products_by_similarity` (lines 226-315): map `process_category`
over the category dictionary (insertion order) and concatenate the group
lists; the first raising category aborts the whole call. -/
def group_products_by_similarity (θ : ℚ) (cats : List (String × List Listing)) :
    Except Unit (List (List Listing)) :=
  match cats.mapM (fun cp => process_category θ cp.2) with
  | .error e => .error e
  | .ok results => .ok results.flatten

/-- `products.index(prod_i)`: the first position holding a listing equal to
`p` (list `.index` uses value equality). -/
def repIdx (products : List Listing) (p : Listing) : ℕ :=
  products.findIdx (fun q => q == p)

/-- The pairs `(products.index(p), p)` for every listing in order — the
submission sequence before the per-batch `not in used` filter. -/
def allPairs (products : List Listing) : List (ℕ × Listing) :=
  products.map (fun p => (repIdx products p, p))

/-! ## Concrete demonstration data (used by the witnesses)

A product 10 sold by two sellers, `sA` (id 1, url `ua`, price 1000) and `sB`
(id 2, url `ub`, price 1200) — the two-seller scenario of the specification's
price-history property. -/

/-- Seller registry `{sA ↦ 1, sB ↦ 2}`. -/
def demoSellers : SellerList := [("sA", 1), ("sB", 2)]

/-- Product 10 with comparison rows at 1000 (seller 1) and 1200 (seller 2). -/
def demoState : DBState :=
  ⟨[], [⟨1, 10, 1, "ua", 1000, "ta"⟩, ⟨2, 10, 2, "ub", 1200, "tb"⟩], [], 1, 3⟩

/-- The stored comparison row of seller `sA`. -/
def demoRowA : ComparisonRow := ⟨1, 10, 1, "ua", 1000, "ta"⟩

/-- The stored comparison row of seller `sB`. -/
def demoRowB : ComparisonRow := ⟨2, 10, 2, "ub", 1200, "tb"⟩

/-- Seller A lowers its price to 900 — a new product minimum. -/
def demoListingA : Listing := ⟨"ta2", 900, "ua", "", "sA", "c"⟩

/-- Seller B lowers its price to 1100 — not a new product minimum. -/
def demoListingB : Listing := ⟨"tb2", 1100, "ub", "", "sB", "c"⟩

/-- Seller A reports the unchanged price 1000 with a fresh raw title. -/
def demoListingC : Listing := ⟨"tc", 1000, "ua", "", "sA", "c"⟩

/-- A listing from a seller key absent from the registry. -/
def demoListingZ : Listing := ⟨"tz", 500, "uz", "", "unknown-site", "c"⟩

/-- A catalog state for the identity-resolution witness: product 5 exists and
is referenced by a PriceComparison row with url `u1`. -/
def demoProdState : DBState :=
  ⟨[⟨5, 1, 1, "v", "g", ""⟩], [⟨1, 5, 1, "u1", 100, "t"⟩], [], 6, 2⟩

/-- A one-listing group whose url `u1` is already in the comparison table. -/
def demoGroup : List Listing := [⟨"t", 100, "u1", "", "sA", "c"⟩]

/-! ## Lemmas about the scanners (used for claim C6) -/

theorem replaceAllUnlessGo_mem {pat : List Char} {bad : List Char → Bool} {rep : List Char} :
    ∀ (l : List Char) (skip : ℕ) (c : Char),
      c ∈ replaceAllUnlessGo pat bad rep skip l → c ∈ l ∨ c ∈ rep := by
  intro l
  induction l with
  | nil => intro skip c hc; cases skip <;> simp [replaceAllUnlessGo] at hc
  | cons a cs ih =>
    intro skip c hc
    match skip with
    | skip' + 1 =>
      rcases ih skip' c (by simpa [replaceAllUnlessGo] using hc) with h | h
      · exact Or.inl (List.mem_cons_of_mem _ h)
      · exact Or.inr h
    | 0 =>
      simp only [replaceAllUnlessGo] at hc
      split at hc
      · rcases List.mem_append.mp hc with h | h
        · exact Or.inr h
        · rcases ih _ c h with h2 | h2
          · exact Or.inl (List.mem_cons_of_mem _ h2)
          · exact Or.inr h2
      · rcases List.mem_cons.mp hc with h | h
        · exact Or.inl (h ▸ List.mem_cons_self _ _)
        · rcases ih 0 c h with h2 | h2
          · exact Or.inl (List.mem_cons_of_mem _ h2)
          · exact Or.inr h2

theorem replaceAll_mem {pat rep l : List Char} {c : Char} (hc : c ∈ replaceAll pat rep l) :
    c ∈ l ∨ c ∈ rep :=
  replaceAllUnlessGo_mem l 0 c hc

theorem stripVolumeUnitsGo_noDigit :
    ∀ (l : List Char) (skip : ℕ) (c : Char),
      c ∈ stripVolumeUnitsGo skip l → isAsciiDigit c = false := by
  intro l
  induction l with
  | nil => intro skip c hc; cases skip <;> simp [stripVolumeUnitsGo] at hc
  | cons a cs ih =>
    intro skip c hc
    match skip with
    | skip' + 1 => exact ih skip' c (by simpa [stripVolumeUnitsGo] using hc)
    | 0 =>
      simp only [stripVolumeUnitsGo] at hc
      split at hc
      · exact ih _ c hc
      · rcases List.mem_cons.mp hc with h | h
        · rename_i hdig
          subst h
          simpa using hdig
        · exact ih 0 c h

theorem stripNicotineGo_mem :
    ∀ (l : List Char) (skip : ℕ) (c : Char), c ∈ stripNicotineGo skip l → c ∈ l := by
  intro l
  induction l with
  | nil => intro skip c hc; cases skip <;> simp [stripNicotineGo] at hc
  | cons a cs ih =>
    intro skip c hc
    match skip with
    | skip' + 1 =>
      exact List.mem_cons_of_mem _ (ih skip' c (by simpa [stripNicotineGo] using hc))
    | 0 =>
      simp only [stripNicotineGo] at hc
      split at hc
      · split at hc
        · exact List.mem_cons_of_mem _ (ih _ c hc)
        · rcases List.mem_cons.mp hc with h | h
          · exact h ▸ List.mem_cons_self _ _
          · exact List.mem_cons_of_mem _ (ih 0 c h)
      · rcases List.mem_cons.mp hc with h | h
        · exact h ▸ List.mem_cons_self _ _
        · exact List.mem_cons_of_mem _ (ih 0 c h)

theorem collapseWsGo_mem :
    ∀ (l : List Char) (skip : ℕ) (c : Char),
      c ∈ collapseWsGo skip l → c ∈ l ∨ c = ' ' := by
  intro l
  induction l with
  | nil => intro skip c hc; cases skip <;> simp [collapseWsGo] at hc
  | cons a cs ih =>
    intro skip c hc
    match skip with
    | skip' + 1 =>
      rcases ih skip' c (by simpa [collapseWsGo] using hc) with h | h
      · exact Or.inl (List.mem_cons_of_mem _ h)
      · exact Or.inr h
    | 0 =>
      simp only [collapseWsGo] at hc
      split at hc
      · rcases List.mem_cons.mp hc with h | h
        · exact Or.inr h
        · rcases ih _ c h with h2 | h2
          · exact Or.inl (List.mem_cons_of_mem _ h2)
          · exact Or.inr h2
      · rcases List.mem_cons.mp hc with h | h
        · exact Or.inl (h ▸ List.mem_cons_self _ _)
        · rcases ih 0 c h with h2 | h2
          · exact Or.inl (List.mem_cons_of_mem _ h2)
          · exact Or.inr h2

theorem mem_of_mem_dropWhile {p : Char → Bool} {l : List Char} {c : Char}
    (hc : c ∈ l.dropWhile p) : c ∈ l := by
  induction l with
  | nil => simpa [List.dropWhile] using hc
  | cons a cs ih =>
    simp only [List.dropWhile] at hc
    split at hc
    · exact List.mem_cons_of_mem _ (ih hc)
    · exact hc

theorem pyStrip_mem {l : List Char} {c : Char} (hc : c ∈ pyStrip l) : c ∈ l := by
  unfold pyStrip at hc
  rw [List.mem_reverse] at hc
  have h1 := mem_of_mem_dropWhile hc
  rw [List.mem_reverse] at h1
  exact mem_of_mem_dropWhile h1

/-- Every character of the tail of the normalization pipeline (from the
volume-stripping step on) is a non-digit: the volume regex deletes every
digit and no later step reintroduces one. -/
theorem noDigit_normalizeTail (t0 : List Char) (c : Char)
    (hc : c ∈ normalizeTail t0) :
    isAsciiDigit c = false := by
  unfold normalizeTail at hc
  have h1 := pyStrip_mem hc
  rcases collapseWsGo_mem _ _ _ h1 with h2 | h2
  · have h3 := stripNicotineGo_mem _ _ _ h2
    rcases replaceAll_mem h3 with h4 | h4
    · rcases replaceAll_mem h4 with h5 | h5
      · exact stripVolumeUnitsGo_noDigit _ _ _ h5
      · simp at h5
    · simp at h4
  · subst h2
    decide

/-! ## Claim C4 — brand resolution -/

theorem brandLoop_eq_find (nt : List Char) :
    ∀ brands : BrandList,
      brandLoop nt brands =
        ((brands.find? (fun b => isSubstr (pyLower b.1.data) nt)).map
          (fun b => b.2)).getD 1 := by
  intro brands
  induction brands with
  | nil => rfl
  | cons b rest ih =>
    rcases b with ⟨name, bid⟩
    by_cases h : isSubstr (pyLower name.data) nt
    · simp [brandLoop, List.find?, h]
    · simp only [Bool.not_eq_true] at h
      simp [brandLoop, List.find?, h, ih]

/-- C4 counterexample: with the registry in order `{VIP ↦ 7, VIP쥬스 ↦ 8}` and a
title starting with `vip쥬스`, `get_company_id_from_title` returns VIP's id 7,
not VIP쥬스's id 8 — refuting the claimed longest-match-first prefix rule. -/
theorem brand_longest_match_counterexample :
    get_company_id_from_title [("VIP", 7), ("VIP쥬스", 8)] "vip쥬스 블루베리" = 7 ∧
    get_company_id_from_title [("VIP", 7), ("VIP쥬스", 8)] "vip쥬스 블루베리" ≠ 8 := by
  decide

/-- C4 amended: brand resolution iterates the registry in dict insertion order
(no sorting by length) and selects the first brand whose lowercased name
occurs as a SUBSTRING of the normalized title (not a prefix), falling back to
the sentinel id 1; consequently, with brands in order `{VIP, VIP쥬스}` and a
title starting with `vip쥬스`, the resolver selects `VIP`. -/
theorem brand_match_substring_in_registry_order :
    (∀ (brands : BrandList) (title : String),
        get_company_id_from_title brands title =
          ((brands.find? (fun b =>
              isSubstr (pyLower b.1.data) (normalize_title_text title).data)).map
            (fun b => b.2)).getD 1) ∧
    get_company_id_from_title [("VIP", 7), ("VIP쥬스", 8)] "vip쥬스 블루베리" = 7 := by
  constructor
  · intro brands title
    exact brandLoop_eq_find (normalize_title_text title).data brands
  · decide

/-! ## Claim C5 — Levenshtein similarity -/

/-- C5 counterexample: on two empty strings the source returns `0.0`
(the `not str1 or not str2` guard fires first), not the claimed `1.0`. -/
theorem similarity_both_empty_is_zero :
    compute_levenshtein_similarity "" "" = 0 ∧ compute_levenshtein_similarity "" "" ≠ 1 := by
  decide

/-- C5 amended: the similarity is `0` whenever either string is empty
(including both empty — the `max_len == 0` branch returning `1.0` is dead
code), and equals `1 - levenshteinDistance/max(len, len)` for two nonempty
strings. -/
theorem similarity_formula :
    ∀ s1 s2 : String,
      (s1.data = [] ∨ s2.data = [] → compute_levenshtein_similarity s1 s2 = 0) ∧
      (s1.data ≠ [] → s2.data ≠ [] →
        compute_levenshtein_similarity s1 s2 =
          1 - (levDist s1.data s2.data : ℚ) /
            (max s1.data.length s2.data.length : ℚ)) := by
  intro s1 s2
  refine ⟨fun h => ?_, fun h1 h2 => ?_⟩
  · unfold compute_levenshtein_similarity levSim
    rw [if_pos h]
  · unfold compute_levenshtein_similarity levSim
    have hmax : ¬ (max s1.data.length s2.data.length = 0) := by
      have hl : s1.data.length ≠ 0 := fun hh => h1 (List.length_eq_zero.mp hh)
      omega
    rw [if_neg (by tauto), if_neg hmax]

/-- Witness for `similarity_formula` at concrete inputs. -/
theorem similarity_formula_witness :
    compute_levenshtein_similarity "" "x" = 0 ∧
    compute_levenshtein_similarity "ab" "ad" =
      1 - (levDist "ab".data "ad".data : ℚ) / (max "ab".data.length "ad".data.length : ℚ) :=
  ⟨(similarity_formula "" "x").1 (Or.inl rfl),
   (similarity_formula "ab" "ad").2 (by decide) (by decide)⟩

/-! ## Claim C6 — volume/concentration stripping -/

/-- C6 counterexample: the numeric token `30` is NOT followed by a unit token,
yet it is removed — the unit alternation `(mg/ml|mg|ml|%|)` ends in an empty
alternative, so a bare number matches too. -/
theorem volume_strip_bare_number_counterexample :
    normalize_title_text "abc 30 def" = "abc def" ∧
    '3' ∈ "abc 30 def".data ∧ ¬ '3' ∈ (normalize_title_text "abc 30 def").data := by
  decide

/-- C6 amended: the volume-stripping step removes EVERY numeric token,
whether or not a unit token follows (the trailing empty alternative of
`(mg/ml|mg|ml|%|)` always matches); consequently no digit survives
normalization at all. -/
theorem volume_strip_removes_all_digits :
    normalize_title_text "abc 30 def" = "abc def" ∧
    ∀ (s : String) (c : Char), c ∈ (normalize_title_text s).data → isAsciiDigit c = false := by
  constructor
  · decide
  · intro s c hc
    by_cases hs : s.data = []
    · unfold normalize_title_text at hc
      rw [if_pos hs] at hc
      simp at hc
    · unfold normalize_title_text at hc
      rw [if_neg hs] at hc
      have hc2 : c ∈ normalizeTail (normalizeHead s) := by simpa using hc
      exact noDigit_normalizeTail (normalizeHead s) c hc2

/-- Witness for `volume_strip_removes_all_digits` at a concrete character of a
concrete normalized title. -/
theorem volume_strip_removes_all_digits_witness : isAsciiDigit 'a' = false :=
  volume_strip_removes_all_digits.2 "abc 30 def" 'a' (by decide)

/-! ## Claim C7 — idempotence of normalization -/

/-- C7 counterexample: normalization is NOT idempotent — on `정정품품` a second
application changes the result again. -/
theorem normalize_not_idempotent :
    normalize_title_text (normalize_title_text "정정품품") ≠
      normalize_title_text "정정품품" := by
  decide

/-- C7 amended: removing a stoplist token can create a fresh occurrence of the
same token, which only the next application removes: one pass sends `정정품품`
to `정품`, and a second pass sends `정품` to the empty string. -/
theorem normalize_second_pass_shrinks :
    normalize_title_text "정정품품" = "정품" ∧ normalize_title_text "정품" = "" := by
  decide

/-! ## Branch characterizations of the price-comparison upsert -/

theorem lowestPrice_isSome {s : DBState} {pid : ℕ} {r : ComparisonRow}
    (hr : r ∈ s.comparisons) (hpid : r.productId = pid) :
    ∃ a, lowestPrice s pid = some a := by
  unfold lowestPrice
  have hmem : r ∈ s.comparisons.filter (fun row => decide (row.productId = pid)) := by
    rw [List.mem_filter]
    exact ⟨hr, by simp [hpid]⟩
  match hl : s.comparisons.filter (fun row => decide (row.productId = pid)) with
  | [] => rw [hl] at hmem; simp at hmem
  | x :: xs => rw [hl]; exact ⟨_, rfl⟩

theorem priceUpdated_mem {s : DBState} {l : Listing} {r : ComparisonRow}
    (hrmem : r ∈ s.comparisons) :
    ({ r with price := l.price, sellerUrl := l.url, originTitle := l.title } :
      ComparisonRow) ∈ (priceUpdated s r.id l).comparisons := by
  unfold priceUpdated
  have := List.mem_map_of_mem (fun row =>
    if row.id = r.id then
      ({ row with price := l.price, sellerUrl := l.url, originTitle := l.title } :
        ComparisonRow)
    else row) hrmem
  simpa using this

/-- The price-change branch: minimums are read around the update and the
`minChangeHistory` row is appended. -/
theorem save_changed_eq
    (sellers : SellerList) (pid : ℕ) (s : DBState) (l : Listing) (r : ComparisonRow)
    (hsid : sellerIdOf sellers l ≠ 0)
    (hfind : s.comparisons.find? (fun row =>
        row.productId = pid ∧ row.sellerUrl = l.url ∧
        row.sellerId = sellerIdOf sellers l) = some r)
    (hprice : r.price ≠ l.price) :
    ∃ a b, lowestPrice s pid = some a ∧
      lowestPrice (priceUpdated s r.id l) pid = some b ∧
      save_price_comparison sellers pid s l =
        ({ priceUpdated s r.id l with
            histories := s.histories ++ minChangeHistory pid (sellerIdOf sellers l) a b },
         .updatedPrice) := by
  have hrmem : r ∈ s.comparisons := List.mem_of_find?_eq_some hfind
  have hpred := List.find?_some hfind
  simp only [decide_eq_true_eq] at hpred
  obtain ⟨hpid, hurl, hsidr⟩ := hpred
  obtain ⟨a, ha⟩ := lowestPrice_isSome hrmem hpid
  obtain ⟨b, hb⟩ := lowestPrice_isSome (@priceUpdated_mem s l r hrmem) hpid
  refine ⟨a, b, ha, hb, ?_⟩
  simp only [save_price_comparison]
  rw [if_neg hsid, hfind]
  simp only []
  rw [if_pos hprice, ha, hb]
  simp [priceUpdated]

/-- The same-price branch: only `originTitle` is rewritten. -/
theorem save_title_eq
    (sellers : SellerList) (pid : ℕ) (s : DBState) (l : Listing) (r : ComparisonRow)
    (hsid : sellerIdOf sellers l ≠ 0)
    (hfind : s.comparisons.find? (fun row =>
        row.productId = pid ∧ row.sellerUrl = l.url ∧
        row.sellerId = sellerIdOf sellers l) = some r)
    (hprice : r.price = l.price) :
    save_price_comparison sellers pid s l = (titleUpdated s r.id l, .updatedTitle) := by
  simp only [save_price_comparison]
  rw [if_neg hsid, hfind]
  simp only []
  rw [if_neg (not_not_intro hprice)]

/-- The fresh-row branch: a comparison row and a first-observation history row
are appended. -/
theorem save_insert_eq
    (sellers : SellerList) (pid : ℕ) (s : DBState) (l : Listing)
    (hsid : sellerIdOf sellers l ≠ 0)
    (hfind : s.comparisons.find? (fun row =>
        row.productId = pid ∧ row.sellerUrl = l.url ∧
        row.sellerId = sellerIdOf sellers l) = none) :
    save_price_comparison sellers pid s l =
      ({ s with
          comparisons := s.comparisons ++
            [⟨s.nextComparisonId, pid, sellerIdOf sellers l, l.url, l.price, l.title⟩],
          nextComparisonId := s.nextComparisonId + 1,
          histories := s.histories ++
            [⟨pid, sellerIdOf sellers l, 0, l.price, none, none⟩] },
       .inserted) := by
  simp only [save_price_comparison]
  rw [if_neg hsid, hfind]

/-! ## Claims C1, C9, C10 — the price-comparison upsert -/

/-- C1: when an existing PriceComparison row keyed on `(productId, sellerUrl,
sellerId)` reports a price different from the listing's, the reconciler reads
the product's minimum price before the update, rewrites the row, reads the
minimum again, and appends `minChangeHistory` — a history row present iff the
minimum changed, carrying `priceDifference = newLowest - oldLowest` and
`percentageChange = (newLowest - oldLowest)/oldLowest * 100`, the latter being
0 with no division performed when the old lowest price is 0. -/
theorem price_change_appends_history_iff_minimum_changed
    (sellers : SellerList) (pid : ℕ) (s : DBState) (l : Listing) (r : ComparisonRow)
    (hsid : sellerIdOf sellers l ≠ 0)
    (hfind : s.comparisons.find? (fun row =>
        row.productId = pid ∧ row.sellerUrl = l.url ∧
        row.sellerId = sellerIdOf sellers l) = some r)
    (hprice : r.price ≠ l.price) :
    ∃ a b, lowestPrice s pid = some a ∧
      lowestPrice (priceUpdated s r.id l) pid = some b ∧
      save_price_comparison sellers pid s l =
        ({ priceUpdated s r.id l with
            histories := s.histories ++ minChangeHistory pid (sellerIdOf sellers l) a b },
         .updatedPrice) :=
  save_changed_eq sellers pid s l r hsid hfind hprice

/-- C9: when an existing PriceComparison row for the key already carries the
listing's price, the reconciler performs only the `originTitle` refresh: the
resulting state is `titleUpdated` (price and every other field untouched), and
no PriceHistory row is appended (`histories` and `products` are unchanged). -/
theorem same_price_updates_only_origin_title
    (sellers : SellerList) (pid : ℕ) (s : DBState) (l : Listing) (r : ComparisonRow)
    (hsid : sellerIdOf sellers l ≠ 0)
    (hfind : s.comparisons.find? (fun row =>
        row.productId = pid ∧ row.sellerUrl = l.url ∧
        row.sellerId = sellerIdOf sellers l) = some r)
    (hprice : r.price = l.price) :
    save_price_comparison sellers pid s l = (titleUpdated s r.id l, .updatedTitle) ∧
    (titleUpdated s r.id l).histories = s.histories ∧
    (titleUpdated s r.id l).products = s.products :=
  ⟨save_title_eq sellers pid s l r hsid hfind hprice, rfl, rfl⟩

/-- C10: a listing whose `source_file` key is absent from the seller registry
gets the default seller id 1; the skip branch is not taken (the fallback id is
truthy) and a PriceComparison row for the listing is still persisted. -/
theorem missing_seller_key_defaults_and_persists
    (sellers : SellerList) (pid : ℕ) (s : DBState) (l : Listing)
    (habs : sellers.find? (fun e => e.1 = l.source_file) = none) :
    sellerIdOf sellers l = 1 ∧
    (save_price_comparison sellers pid s l).2 ≠ UpsertBranch.skipped ∧
    ∃ row, row ∈ (save_price_comparison sellers pid s l).1.comparisons ∧
      row.productId = pid ∧ row.sellerId = 1 ∧ row.sellerUrl = l.url := by
  have hsid : sellerIdOf sellers l = 1 := by unfold sellerIdOf; rw [habs]
  have hsid0 : sellerIdOf sellers l ≠ 0 := by rw [hsid]; decide
  refine ⟨hsid, ?_⟩
  cases hfind : s.comparisons.find? (fun row =>
      row.productId = pid ∧ row.sellerUrl = l.url ∧
      row.sellerId = sellerIdOf sellers l) with
  | none =>
    rw [save_insert_eq sellers pid s l hsid0 hfind]
    constructor
    · simp
    · exact ⟨⟨s.nextComparisonId, pid, sellerIdOf sellers l, l.url, l.price, l.title⟩,
        by simp, rfl, hsid, rfl⟩
  | some r =>
    have hpred := List.find?_some hfind
    simp only [decide_eq_true_eq] at hpred
    obtain ⟨hpid, hurl, hsidr⟩ := hpred
    have hrmem : r ∈ s.comparisons := List.mem_of_find?_eq_some hfind
    by_cases hp : r.price ≠ l.price
    · obtain ⟨a, b, _, _, heq⟩ := save_changed_eq sellers pid s l r hsid0 hfind hp
      rw [heq]
      constructor
      · simp
      · exact ⟨{ r with price := l.price, sellerUrl := l.url, originTitle := l.title },
          priceUpdated_mem hrmem, hpid, by simpa [hsid] using hsidr, rfl⟩
    · rw [save_title_eq sellers pid s l r hsid0 hfind (not_not.mp hp)]
      refine ⟨by simp, ⟨{ r with originTitle := l.title }, ?_, hpid,
        by simpa [hsid] using hsidr, hurl⟩⟩
      unfold titleUpdated
      have := List.mem_map_of_mem (fun row =>
        if row.id = r.id then ({ row with originTitle := l.title } : ComparisonRow)
        else row) hrmem
      simpa using this

unseal Rat.mul Rat.inv Rat.add Rat.sub in
/-- Witness for `price_change_appends_history_iff_minimum_changed` on the
specification's two-seller scenario: seller B lowering 1200 → 1100 appends no
history row, seller A lowering 1000 → 900 appends exactly one row with
oldPrice 1000, newPrice 900, priceDifference -100, percentageChange -10. -/
theorem price_change_appends_history_iff_minimum_changed_witness :
    ((∃ a b, lowestPrice demoState 10 = some a ∧
        lowestPrice (priceUpdated demoState 1 demoListingA) 10 = some b ∧
        save_price_comparison demoSellers 10 demoState demoListingA =
          ({ priceUpdated demoState 1 demoListingA with
              histories := demoState.histories ++ minChangeHistory 10 1 a b },
           .updatedPrice)) ∧
     (∃ a b, lowestPrice demoState 10 = some a ∧
        lowestPrice (priceUpdated demoState 2 demoListingB) 10 = some b ∧
        save_price_comparison demoSellers 10 demoState demoListingB =
          ({ priceUpdated demoState 2 demoListingB with
              histories := demoState.histories ++ minChangeHistory 10 2 a b },
           .updatedPrice))) ∧
    (save_price_comparison demoSellers 10 demoState demoListingA).1.histories =
      [⟨10, 1, 1000, 900, some (-100), some (-10)⟩] ∧
    (save_price_comparison demoSellers 10 demoState demoListingB).1.histories = [] := by
  refine ⟨⟨?_, ?_⟩, by decide, by decide⟩
  · exact price_change_appends_history_iff_minimum_changed demoSellers 10 demoState
      demoListingA demoRowA (by decide) (by decide) (by decide)
  · exact price_change_appends_history_iff_minimum_changed demoSellers 10 demoState
      demoListingB demoRowB (by decide) (by decide) (by decide)

/-- Witness for `same_price_updates_only_origin_title`: seller A re-reports
price 1000 with raw title `tc`; only that row's `originTitle` changes. -/
theorem same_price_updates_only_origin_title_witness :
    (save_price_comparison demoSellers 10 demoState demoListingC =
      (titleUpdated demoState 1 demoListingC, .updatedTitle) ∧
     (titleUpdated demoState 1 demoListingC).histories = demoState.histories ∧
     (titleUpdated demoState 1 demoListingC).products = demoState.products) ∧
    (titleUpdated demoState 1 demoListingC).comparisons =
      [⟨1, 10, 1, "ua", 1000, "tc"⟩, ⟨2, 10, 2, "ub", 1200, "tb"⟩] := by
  refine ⟨?_, by decide⟩
  exact same_price_updates_only_origin_title demoSellers 10 demoState demoListingC
    demoRowA (by decide) (by decide) (by decide)

/-- Witness for `missing_seller_key_defaults_and_persists`: the seller key
`unknown-site` is absent from the registry `{sA ↦ 1}`. -/
theorem missing_seller_key_defaults_and_persists_witness :
    sellerIdOf [("sA", 1)] demoListingZ = 1 ∧
    (save_price_comparison [("sA", 1)] 10 demoState demoListingZ).2 ≠
      UpsertBranch.skipped ∧
    ∃ row, row ∈ (save_price_comparison [("sA", 1)] 10 demoState demoListingZ).1.comparisons ∧
      row.productId = 10 ∧ row.sellerId = 1 ∧ row.sellerUrl = demoListingZ.url :=
  missing_seller_key_defaults_and_persists [("sA", 1)] 10 demoState demoListingZ (by decide)

/-! ## Claim C3 — canonical identity resolution priority -/

/-- C3: under referential integrity (every PriceComparison row's productId has
a product row) and positive product ids, `resolveIdentity` follows exactly the
specified priority: url-based reuse first, then the
`(companyId, productGroupingName, productCategoryId)` lookup, then a fresh
insert with the image-url fallback — which is the content of
`specIdentityChoice`. -/
theorem identity_lookup_priority
    (s : DBState) (group : List Listing) (companyId productCategoryId : ℕ)
    (visibleName productGroupingName : String)
    (hfk : ∀ r ∈ s.comparisons, ∃ p ∈ s.products, p.id = r.productId)
    (hpos : ∀ p ∈ s.products, p.id ≠ 0) :
    resolveIdentity s group companyId productCategoryId visibleName productGroupingName =
      specIdentityChoice s group companyId productCategoryId visibleName
        productGroupingName := by
  unfold resolveIdentity specIdentityChoice
  cases hurl : urlLookup s group with
  | none => simp
  | some r =>
    have hrmem : r ∈ s.comparisons := by
      obtain ⟨l, hl, hfind⟩ := List.exists_of_findSome?_eq_some hurl
      exact List.mem_of_find?_eq_some hfind
    obtain ⟨p, hpmem, hpid⟩ := hfk r hrmem
    have hppos : r.productId ≠ 0 := hpid ▸ hpos p hpmem
    have hfindp : (s.products.find? (fun q => q.id = r.productId)).isSome := by
      rw [List.find?_isSome]
      exact ⟨p, hpmem, by simp [hpid]⟩
    obtain ⟨q, hq⟩ := Option.isSome_iff_exists.mp hfindp
    have hqid : q.id = r.productId := by simpa using List.find?_some hq
    simp [hppos, hq, hqid]

/-- Witness for `identity_lookup_priority` on a concrete state where the
group's url is already present in the comparison table. -/
theorem identity_lookup_priority_witness :
    resolveIdentity demoProdState demoGroup 1 1 "v" "g" =
      specIdentityChoice demoProdState demoGroup 1 1 "v" "g" :=
  identity_lookup_priority demoProdState demoGroup 1 1 "v" "g" (by decide) (by decide)

/-! ## Claim C8 — duplicate-key failure handling on the product insert -/

/-- C8 counterexample: a duplicate-key failure on the new-product insert is
immediately fatal (the whole run aborts), even in a state where the
conflicting row exists, so a fallback read WOULD have found it — no such
fallback read is performed. -/
theorem insert_failure_fatal_counterexample :
    new_product_save (fun _ => .error .duplicateKey) demoGroup 1 1 "v" "g" = .error () ∧
    ((⟨[⟨5, 1, 1, "v", "g", ""⟩], [], [], 6, 1⟩ : DBState)).products.find?
      (fun p => p.companyId = 1 ∧ p.productGroupingName = "g" ∧
        p.productCategoryId = 1) =
      some ⟨5, 1, 1, "v", "g", ""⟩ :=
  ⟨rfl, by decide⟩

/-- C8 amended: ANY failure raised by the connector during the new-product
insert — duplicate-key included — makes the reconciler log and exit
immediately; no fallback read of the conflicting row is attempted. -/
theorem insert_failure_always_fatal
    (ins : ProductData → Except DBErr ℕ) (group : List Listing)
    (companyId productCategoryId : ℕ) (visibleName productGroupingName : String)
    (e : DBErr)
    (hins : ins ⟨companyId, productCategoryId, visibleName, productGroupingName,
      selectImageUrl group⟩ = .error e) :
    new_product_save ins group companyId productCategoryId visibleName
      productGroupingName = .error () := by
  simp only [new_product_save]
  rw [hins]

/-- Witness for `insert_failure_always_fatal` with a connector that raises. -/
theorem insert_failure_always_fatal_witness :
    new_product_save (fun _ => .error .other) demoGroup 1 1 "v" "g" = .error () :=
  insert_failure_always_fatal (fun _ => .error .other) demoGroup 1 1 "v" "g" .other rfl

/-! ## Claim C2 — grouping partitions the input

The development below works under the serialized schedule built into the
model: each submitted grouping task completes and is merged before the next
one starts. -/

theorem levDist_self (t : List Char) : levDist t t = 0 := by
  induction t with
  | nil => simp [levDist]
  | cons c cs ih => simp [levDist, ih]

theorem levSim_self {t : List Char} (ht : t ≠ []) : levSim t t = 1 := by
  unfold levSim
  rw [if_neg (by simp [ht])]
  have hlen : t.length ≠ 0 := fun h => ht (List.length_eq_zero.mp h)
  rw [if_neg (by omega)]
  rw [levDist_self]
  simp

theorem lengthDiffSkip_self (t : List Char) : lengthDiffSkip t t = false := by
  unfold lengthDiffSkip
  rw [decide_eq_false_iff_not]
  simp only [max_self, min_self, Nat.sub_self, Nat.cast_zero, zero_div]
  norm_num

theorem jaccardKeep_self {t : List Char} (ht : t ≠ []) : jaccardKeep t t = true := by
  unfold jaccardKeep
  rw [decide_eq_true_eq]
  have hfil : t.dedup.filter (fun c => decide (c ∈ t)) = t.dedup :=
    List.filter_eq_self.mpr (fun a ha => by simp [List.mem_dedup.mp ha])
  have hunion : ((t ++ t).dedup).length = t.dedup.length := by
    have hperm : List.Perm ((t ++ t).dedup) t.dedup := by
      rw [List.perm_ext_iff_of_nodup (List.nodup_dedup _) (List.nodup_dedup _)]
      intro a
      simp [List.mem_dedup]
    exact hperm.length_eq
  rw [hfil, hunion]
  have hpos : 0 < t.dedup.length := by
    rcases t with _ | ⟨c, cs⟩
    · exact absurd rfl ht
    · have : c ∈ (c :: cs).dedup := List.mem_dedup.mpr (List.mem_cons_self c cs)
      exact List.length_pos.mpr (fun h => by simp [h] at this)
  have hne : ((t.dedup.length : ℚ)) ≠ 0 := by
    have : t.dedup.length ≠ 0 := by omega
    simpa using this
  rw [div_self hne]
  norm_num

theorem getD_map_of_lt {α β : Type} (f : α → β) (l : List α) (d : α) (db : β) :
    ∀ i, i < l.length → (l.map f).getD i db = f (l.getD i d) := by
  induction l with
  | nil => intro i hi; simp at hi
  | cons a as ih =>
    intro i hi
    cases i with
    | zero => simp
    | succ j =>
      simp only [List.map_cons, List.getD_cons_succ]
      exact ih j (by simpa using hi)

theorem repIdx_lt {ps : List Listing} {v : Listing} (hv : v ∈ ps) :
    repIdx ps v < ps.length :=
  List.findIdx_lt_length_of_exists ⟨v, hv, by simp⟩

theorem getD_repIdx {ps : List Listing} {v : Listing} (hv : v ∈ ps) :
    ps.getD (repIdx ps v) default = v := by
  have hlt : repIdx ps v < ps.length := repIdx_lt hv
  have h := @List.findIdx_getElem _ (fun q => q == v) ps hlt
  have hg : ps.getD (repIdx ps v) default = ps[repIdx ps v] := by
    rw [List.getD_eq_getElem?_getD, List.getElem?_eq_getElem hlt]
    rfl
  rw [hg]
  simpa using h

/-- Specification of `prefilterAux` for a nonempty seed title: it never
raises, and its result is exactly the sound and complete candidate set. -/
theorem prefilterAux_spec {ti : List Char} (hti : ti ≠ []) :
    ∀ (tjs : List (List Char)) (k : ℕ),
      ∃ C, prefilterAux ti tjs k = .ok C ∧
        (∀ j ∈ C, k ≤ j ∧ j < k + tjs.length ∧
          lengthDiffSkip ti (tjs.getD (j - k) []) = false ∧
          jaccardKeep ti (tjs.getD (j - k) []) = true) ∧
        (∀ d, d < tjs.length → lengthDiffSkip ti (tjs.getD d []) = false →
          jaccardKeep ti (tjs.getD d []) = true → (k + d) ∈ C) ∧
        C.Nodup := by
  have htlen : ti.length ≠ 0 := fun h => hti (List.length_eq_zero.mp h)
  intro tjs
  induction tjs with
  | nil =>
    intro k
    exact ⟨[], rfl, by simp, by simp, List.nodup_nil⟩
  | cons tj rest ih =>
    intro k
    obtain ⟨C, hC, hsound, hcomp, hnodup⟩ := ih (k + 1)
    have hmax : ¬ (max ti.length tj.length = 0) := by
      simp only [Nat.max_eq_zero_iff]
      omega
    by_cases hskip : lengthDiffSkip ti tj
    · refine ⟨C, ?_, ?_, ?_, hnodup⟩
      · unfold prefilterAux
        rw [if_neg hmax, if_pos hskip]
        exact hC
      · intro j hj
        obtain ⟨h1, h2, h3, h4⟩ := hsound j hj
        refine ⟨by omega, by simp only [List.length_cons]; omega, ?_, ?_⟩
        · have hidx : j - k = (j - (k + 1)) + 1 := by omega
          rw [hidx, List.getD_cons_succ]
          exact h3
        · have hidx : j - k = (j - (k + 1)) + 1 := by omega
          rw [hidx, List.getD_cons_succ]
          exact h4
      · intro d hd hd1 hd2
        cases d with
        | zero =>
          rw [List.getD_cons_zero] at hd1
          exact absurd hd1 (by simp [hskip])
        | succ d2 =>
          rw [List.getD_cons_succ] at hd1 hd2
          have := hcomp d2 (by simpa using hd) hd1 hd2
          have harith : k + (d2 + 1) = k + 1 + d2 := by omega
          rw [harith]
          exact this
    · by_cases hjac : jaccardKeep ti tj
      · refine ⟨k :: C, ?_, ?_, ?_, ?_⟩
        · unfold prefilterAux
          rw [if_neg hmax, if_neg (by simp [hskip]), if_pos hjac, hC]
        · intro j hj
          rcases List.mem_cons.mp hj with h | h
          · refine ⟨by omega, by simp only [List.length_cons]; omega, ?_, ?_⟩
            · rw [h, Nat.sub_self, List.getD_cons_zero]
              simpa using hskip
            · rw [h, Nat.sub_self, List.getD_cons_zero]
              exact hjac
          · obtain ⟨h1, h2, h3, h4⟩ := hsound j h
            refine ⟨by omega, by simp only [List.length_cons]; omega, ?_, ?_⟩
            · have hidx : j - k = (j - (k + 1)) + 1 := by omega
              rw [hidx, List.getD_cons_succ]
              exact h3
            · have hidx : j - k = (j - (k + 1)) + 1 := by omega
              rw [hidx, List.getD_cons_succ]
              exact h4
        · intro d hd hd1 hd2
          cases d with
          | zero => simp
          | succ d2 =>
            rw [List.getD_cons_succ] at hd1 hd2
            have := hcomp d2 (by simpa using hd) hd1 hd2
            have harith : k + (d2 + 1) = k + 1 + d2 := by omega
            rw [harith]
            exact List.mem_cons_of_mem _ this
        · rw [List.nodup_cons]
          refine ⟨fun hk => ?_, hnodup⟩
          obtain ⟨h1, _, _, _⟩ := hsound k hk
          omega
      · refine ⟨C, ?_, ?_, ?_, hnodup⟩
        · unfold prefilterAux
          rw [if_neg hmax, if_neg (by simp [hskip]), if_neg (by simp [hjac])]
          exact hC
        · intro j hj
          obtain ⟨h1, h2, h3, h4⟩ := hsound j hj
          refine ⟨by omega, by simp only [List.length_cons]; omega, ?_, ?_⟩
          · have hidx : j - k = (j - (k + 1)) + 1 := by omega
            rw [hidx, List.getD_cons_succ]
            exact h3
          · have hidx : j - k = (j - (k + 1)) + 1 := by omega
            rw [hidx, List.getD_cons_succ]
            exact h4
        · intro d hd hd1 hd2
          cases d with
          | zero =>
            rw [List.getD_cons_zero] at hd2
            exact absurd hd2 (by simp [hjac])
          | succ d2 =>
            rw [List.getD_cons_succ] at hd1 hd2
            have := hcomp d2 (by simpa using hd) hd1 hd2
            have harith : k + (d2 + 1) = k + 1 + d2 := by omega
            rw [harith]
            exact this

/-- With nodup candidates and a fresh local-used accumulator, the claim loop
is a plain filter: claim `j` iff it is not the seed, not used, and similar
enough. -/
theorem claimLoop_eq_filter (θ : ℚ) (titles : List (List Char)) (i : ℕ)
    (used : List ℕ) :
    ∀ (C : List ℕ) (lu : List ℕ), C.Nodup → (∀ j ∈ C, j ∉ lu) →
      claimLoop θ titles i used C lu =
        C.filter (fun j => decide (¬(j = i ∨ j ∈ used) ∧
          levSim (titles.getD i []) (titles.getD j []) ≥ θ)) := by
  intro C
  induction C with
  | nil => intro lu _ _; rfl
  | cons j rest ih =>
    intro lu hnodup hlu
    have hjlu : j ∉ lu := hlu j (List.mem_cons_self _ _)
    have hnodup2 := (List.nodup_cons.mp hnodup).2
    have hjrest := (List.nodup_cons.mp hnodup).1
    unfold claimLoop
    by_cases h1 : j = i ∨ j ∈ used
    · rw [if_pos (by tauto)]
      rw [ih lu hnodup2 (fun j2 hj2 => hlu j2 (List.mem_cons_of_mem _ hj2))]
      rw [List.filter_cons]
      rw [if_neg (by simp only [decide_eq_true_eq]; tauto)]
    · rw [if_neg (by tauto)]
      by_cases h2 : levSim (titles.getD i []) (titles.getD j []) ≥ θ
      · rw [if_pos h2]
        rw [ih (j :: lu) hnodup2 (fun j2 hj2 => by
          simp only [List.mem_cons]
          push_neg
          exact ⟨fun he => hjrest (he ▸ hj2), hlu j2 (List.mem_cons_of_mem _ hj2)⟩)]
        rw [List.filter_cons]
        rw [if_pos (by simp only [decide_eq_true_eq]; exact ⟨h1, h2⟩)]
      · rw [if_neg h2]
        rw [ih lu hnodup2 (fun j2 hj2 => hlu j2 (List.mem_cons_of_mem _ hj2))]
        rw [List.filter_cons]
        rw [if_neg (by simp only [decide_eq_true_eq]; tauto)]

/-- One serialized grouping task preserves the partition invariants: the used
set stays duplicate-free and in range, the flattened groups list the used
positions exactly, the used set is closed under "same value as an earlier
position", it only grows, and the seed's index ends up used. -/
theorem seedStep_ok (θ : ℚ) (hθ : θ ≤ 1) (ps : List Listing)
    (ht : ∀ l ∈ ps, (normalize_title_text l.title).data ≠ [])
    (st : GroupState) (v : Listing) (hv : v ∈ ps)
    (hI1 : st.used.Nodup)
    (hI2 : ∀ j ∈ st.used, j < ps.length)
    (hI3 : st.groups.flatten = st.used.map (getL ps))
    (hI4 : ∀ q, q < ps.length → repIdx ps (getL ps q) ∈ st.used → q ∈ st.used) :
    ∃ st', seedStep θ ps (ps.map (fun p => (normalize_title_text p.title).data)) st
        (repIdx ps v, v) = .ok st' ∧
      st'.used.Nodup ∧
      (∀ j ∈ st'.used, j < ps.length) ∧
      st'.groups.flatten = st'.used.map (getL ps) ∧
      (∀ q, q < ps.length → repIdx ps (getL ps q) ∈ st'.used → q ∈ st'.used) ∧
      (∀ j ∈ st.used, j ∈ st'.used) ∧
      repIdx ps v ∈ st'.used := by
  set titles := ps.map (fun p => (normalize_title_text p.title).data) with htitles
  set i := repIdx ps v with hidef
  have hilt : i < ps.length := repIdx_lt hv
  have higet : ps.getD i default = v := getD_repIdx hv
  have htlen : titles.length = ps.length := by simp [htitles]
  have htid : titles.getD i [] = (normalize_title_text v.title).data := by
    rw [htitles, getD_map_of_lt _ ps default [] i hilt, higet]
  have htine : titles.getD i [] ≠ [] := by rw [htid]; exact ht v hv
  by_cases husd : i ∈ st.used
  · refine ⟨st, ?_, hI1, hI2, hI3, hI4, fun j hj => hj, husd⟩
    simp [seedStep, process_product, husd]
  · obtain ⟨C, hC, hsound, hcomp, hnodupC⟩ := prefilterAux_spec htine titles 0
    have hfilter := claimLoop_eq_filter θ titles i st.used C [] hnodupC (by simp)
    set claimed := claimLoop θ titles i st.used C [] with hclm
    have hclaim_mem : ∀ j ∈ claimed, j ∈ C ∧ j ≠ i ∧ j ∉ st.used ∧
        levSim (titles.getD i []) (titles.getD j []) ≥ θ := by
      intro j hj
      rw [hfilter] at hj
      obtain ⟨hjC, hjp⟩ := List.mem_filter.mp hj
      simp only [decide_eq_true_eq] at hjp
      push_neg at hjp
      exact ⟨hjC, hjp.1.1, hjp.1.2, hjp.2⟩
    have hclaim_comp : ∀ j, j ∈ C → j ≠ i → j ∉ st.used →
        levSim (titles.getD i []) (titles.getD j []) ≥ θ → j ∈ claimed := by
      intro j hjC hji hju hsim
      rw [hfilter]
      refine List.mem_filter.mpr ⟨hjC, ?_⟩
      simp only [decide_eq_true_eq]
      exact ⟨by tauto, hsim⟩
    have hclaimnodup : claimed.Nodup := by
      rw [hfilter]; exact hnodupC.filter _
    have hclaim_lt : ∀ j ∈ claimed, j < ps.length := by
      intro j hj
      obtain ⟨hjC, _, _, _⟩ := hclaim_mem j hj
      obtain ⟨_, h2, _, _⟩ := hsound j hjC
      omega
    refine ⟨⟨st.used ++ i :: claimed, st.groups ++ [v :: claimed.map (getL ps)]⟩,
      ?_, ?_, ?_, ?_, ?_, ?_, ?_⟩
    · simp only [seedStep, process_product, prefilter_candidates]
      rw [if_neg husd, hC]
    · rw [List.nodup_append]
      refine ⟨hI1, ?_, ?_⟩
      · rw [List.nodup_cons]
        exact ⟨fun hik => (hclaim_mem i hik).2.1 rfl, hclaimnodup⟩
      · intro a ha hcontra
        rcases List.mem_cons.mp hcontra with h | h
        · exact husd (h ▸ ha)
        · exact (hclaim_mem a h).2.2.1 ha
    · intro j hj
      rcases List.mem_append.mp hj with h | h
      · exact hI2 j h
      · rcases List.mem_cons.mp h with h2 | h2
        · exact h2 ▸ hilt
        · exact hclaim_lt j h2
    · simp only [List.flatten_append, List.map_append, List.flatten_cons,
        List.flatten_nil, List.append_nil, List.map_cons, hI3]
      have hgi : getL ps i = v := higet
      rw [hgi]
    · intro q hq hfq
      have hwmem : getL ps q ∈ ps := by
        unfold getL
        rw [List.getD_eq_getElem?_getD, List.getElem?_eq_getElem hq]
        simp
      have hfqlt : repIdx ps (getL ps q) < ps.length := repIdx_lt hwmem
      have hfqget : ps.getD (repIdx ps (getL ps q)) default = getL ps q :=
        getD_repIdx hwmem
      have htq : titles.getD q [] = (normalize_title_text (getL ps q).title).data := by
        rw [htitles, getD_map_of_lt _ ps default [] q hq]
        rfl
      have htfq : titles.getD (repIdx ps (getL ps q)) []
          = (normalize_title_text (getL ps q).title).data := by
        rw [htitles, getD_map_of_lt _ ps default [] _ hfqlt, hfqget]
      have htqfq : titles.getD q [] = titles.getD (repIdx ps (getL ps q)) [] := by
        rw [htq, htfq]
      by_cases hqu : q ∈ st.used
      · exact List.mem_append.mpr (Or.inl hqu)
      · by_cases hqi : q = i
        · exact List.mem_append.mpr (Or.inr (hqi ▸ List.mem_cons_self _ _))
        · rcases List.mem_append.mp hfq with h | h
          · exact List.mem_append.mpr (Or.inl (hI4 q hq h))
          · have hqC : titles.getD q [] ≠ [] := by
              rw [htq]; exact ht _ hwmem
            rcases List.mem_cons.mp h with h2 | h2
            · -- the representative IS the seed: q has the seed's title
              have htq_i : titles.getD q [] = titles.getD i [] := by
                rw [htqfq, h2]
              have hqmemC : q ∈ C := by
                have := hcomp q (by omega)
                  (by rw [htq_i]; exact lengthDiffSkip_self _)
                  (by rw [htq_i]; exact jaccardKeep_self htine)
                simpa using this
              have hsim : levSim (titles.getD i []) (titles.getD q []) ≥ θ := by
                rw [htq_i, levSim_self htine]
                exact hθ
              exact List.mem_append.mpr (Or.inr (List.mem_cons_of_mem _
                (hclaim_comp q hqmemC hqi hqu hsim)))
            · -- the representative was claimed: q matches the same tests
              obtain ⟨hfqC, _, _, hfqsim⟩ := hclaim_mem _ h2
              obtain ⟨_, _, hskipfq, hjacfq⟩ := hsound _ hfqC
              simp only [Nat.sub_zero] at hskipfq hjacfq
              have hqmemC : q ∈ C := by
                have := hcomp q (by omega)
                  (by rw [htqfq]; exact hskipfq)
                  (by rw [htqfq]; exact hjacfq)
                simpa using this
              have hsim : levSim (titles.getD i []) (titles.getD q []) ≥ θ := by
                rw [htqfq]; exact hfqsim
              exact List.mem_append.mpr (Or.inr (List.mem_cons_of_mem _
                (hclaim_comp q hqmemC hqi hqu hsim)))
    · intro j hj
      exact List.mem_append.mpr (Or.inl hj)
    · exact List.mem_append.mpr (Or.inr (List.mem_cons_self _ _))

theorem seedStep_skip (θ : ℚ) (ps : List Listing) (titles : List (List Char))
    (st : GroupState) (pr : ℕ × Listing) (h : pr.1 ∈ st.used) :
    seedStep θ ps titles st pr = .ok st := by
  simp [seedStep, process_product, h]

theorem seedStep_mono (θ : ℚ) (ps : List Listing) (titles : List (List Char))
    (st st' : GroupState) (pr : ℕ × Listing)
    (h : seedStep θ ps titles st pr = .ok st') :
    ∀ j ∈ st.used, j ∈ st'.used := by
  unfold seedStep at h
  split at h
  · exact absurd h (by simp)
  · intro j hj
    cases h
    exact hj
  · intro j hj
    cases h
    exact List.mem_append.mpr (Or.inl hj)

theorem foldlM_filter_used (θ : ℚ) (ps : List Listing) (titles : List (List Char)) :
    ∀ (pairs : List (ℕ × Listing)) (st : GroupState) (used0 : List ℕ),
      (∀ j ∈ used0, j ∈ st.used) →
      (pairs.filter (fun pr => decide (pr.1 ∉ used0))).foldlM
          (seedStep θ ps titles) st =
        pairs.foldlM (seedStep θ ps titles) st := by
  intro pairs
  induction pairs with
  | nil => intro st used0 _; rfl
  | cons pr rest ih =>
    intro st used0 hsub
    rw [List.filter_cons]
    by_cases hpr : pr.1 ∈ used0
    · rw [if_neg (by simp [hpr])]
      rw [List.foldlM_cons, seedStep_skip θ ps titles st pr (hsub _ hpr)]
      exact ih st used0 hsub
    · rw [if_pos (by simp [hpr])]
      rw [List.foldlM_cons, List.foldlM_cons]
      cases hss : seedStep θ ps titles st pr with
      | error e => rfl
      | ok st2 =>
        exact ih st2 used0 (fun j hj => seedStep_mono θ ps titles st st2 pr hss j (hsub j hj))

theorem submissionsOf_eq (ps : List Listing) (used : List ℕ) (batch : List Listing) :
    submissionsOf ps used batch =
      (batch.map (fun p => (repIdx ps p, p))).filter (fun pr => decide (pr.1 ∉ used)) := by
  unfold submissionsOf repIdx
  rw [List.filter_map]
  rfl

theorem processBatch_eq (θ : ℚ) (ps : List Listing) (titles : List (List Char))
    (st : GroupState) (batch : List Listing) :
    processBatch θ ps titles st batch =
      (batch.map (fun p => (repIdx ps p, p))).foldlM (seedStep θ ps titles) st := by
  unfold processBatch
  rw [submissionsOf_eq]
  exact foldlM_filter_used θ ps titles _ st st.used (fun j hj => hj)

theorem batches_fold_eq (θ : ℚ) (ps : List Listing) (titles : List (List Char)) :
    ∀ (batches : List (List Listing)) (st : GroupState),
      batches.foldlM (processBatch θ ps titles) st =
        (batches.flatten.map (fun p => (repIdx ps p, p))).foldlM
          (seedStep θ ps titles) st := by
  intro batches
  induction batches with
  | nil => intro st; rfl
  | cons b bs ih =>
    intro st
    rw [List.foldlM_cons, List.flatten_cons, List.map_append, List.foldlM_append]
    cases h : (b.map (fun p => (repIdx ps p, p))).foldlM (seedStep θ ps titles) st with
    | error e =>
      rw [processBatch_eq, h]
      rfl
    | ok st2 =>
      rw [processBatch_eq, h]
      exact ih st2

theorem chunksF_flatten :
    ∀ (fuel bs : ℕ) (l : List Listing), bs ≠ 0 → l.length ≤ fuel →
      (chunksF fuel bs l).flatten = l := by
  intro fuel
  induction fuel with
  | zero =>
    intro bs l hbs hl
    have hnil : l = [] := List.length_eq_zero.mp (by omega)
    subst hnil
    rfl
  | succ f ih =>
    intro bs l hbs hl
    cases l with
    | nil => rfl
    | cons a as =>
      show ((a :: as).take bs :: chunksF f bs ((a :: as).drop bs)).flatten = a :: as
      rw [List.flatten_cons, ih bs _ hbs (by
        have hl2 := hl
        simp only [List.length_drop, List.length_cons] at hl2 ⊢
        omega)]
      exact List.take_append_drop bs (a :: as)

/-- Folding the serialized grouping tasks over any value list drawn from `ps`
succeeds and preserves the partition invariants, and every processed value's
representative index ends up used. -/
theorem seedFold_ok (θ : ℚ) (hθ : θ ≤ 1) (ps : List Listing)
    (ht : ∀ l ∈ ps, (normalize_title_text l.title).data ≠ []) :
    ∀ (vs : List Listing) (st : GroupState),
      (∀ v ∈ vs, v ∈ ps) →
      st.used.Nodup →
      (∀ j ∈ st.used, j < ps.length) →
      st.groups.flatten = st.used.map (getL ps) →
      (∀ q, q < ps.length → repIdx ps (getL ps q) ∈ st.used → q ∈ st.used) →
      ∃ st', (vs.map (fun p => (repIdx ps p, p))).foldlM
          (seedStep θ ps (ps.map (fun p => (normalize_title_text p.title).data))) st =
            .ok st' ∧
        st'.used.Nodup ∧
        (∀ j ∈ st'.used, j < ps.length) ∧
        st'.groups.flatten = st'.used.map (getL ps) ∧
        (∀ q, q < ps.length → repIdx ps (getL ps q) ∈ st'.used → q ∈ st'.used) ∧
        (∀ j ∈ st.used, j ∈ st'.used) ∧
        (∀ v ∈ vs, repIdx ps v ∈ st'.used) := by
  intro vs
  induction vs with
  | nil =>
    intro st _ hI1 hI2 hI3 hI4
    exact ⟨st, rfl, hI1, hI2, hI3, hI4, fun j hj => hj, by simp⟩
  | cons v rest ih =>
    intro st hvs hI1 hI2 hI3 hI4
    obtain ⟨st1, hstep, h1, h2, h3, h4, hmono1, hprog1⟩ :=
      seedStep_ok θ hθ ps ht st v (hvs v (List.mem_cons_self _ _)) hI1 hI2 hI3 hI4
    obtain ⟨st', hfold, h1', h2', h3', h4', hmono2, hprog2⟩ :=
      ih st1 (fun w hw => hvs w (List.mem_cons_of_mem _ hw)) h1 h2 h3 h4
    refine ⟨st', ?_, h1', h2', h3', h4', fun j hj => hmono2 j (hmono1 j hj), ?_⟩
    · rw [List.map_cons, List.foldlM_cons, hstep]
      exact hfold
    · intro w hw
      rcases List.mem_cons.mp hw with h | h
      · exact h ▸ hmono2 _ hprog1
      · exact hprog2 w h

theorem range_map_getD {α : Type} (d : α) :
    ∀ (l : List α), (List.range l.length).map (fun q => l.getD q d) = l := by
  intro l
  induction l with
  | nil => rfl
  | cons a as ih =>
    rw [List.length_cons, List.range_succ_eq_map, List.map_cons,
      List.getD_cons_zero, List.map_map]
    have hcomp : ((fun q => (a :: as).getD q d) ∘ Nat.succ) = (fun q => as.getD q d) := by
      funext q
      simp [Function.comp, List.getD_cons_succ]
    rw [hcomp, ih]

/-- Per category: with a nonempty product list whose normalized titles are all
nonempty, `process_category` succeeds and its groups flatten to a permutation
of the input list. -/
theorem process_category_ok (θ : ℚ) (hθ : θ ≤ 1) (ps : List Listing)
    (hne : ps ≠ []) (ht : ∀ l ∈ ps, (normalize_title_text l.title).data ≠ []) :
    ∃ gs, process_category θ ps = .ok gs ∧ List.Perm gs.flatten ps := by
  have hlen : ps.length ≠ 0 := fun h => hne (List.length_eq_zero.mp h)
  have hbs : ¬ (min 1000 ps.length = 0) := by omega
  obtain ⟨st', hfold, hI1, hI2, hI3, hI4, _, hprog⟩ :=
    seedFold_ok θ hθ ps ht ps ⟨[], []⟩ (fun v hv => hv) List.nodup_nil
      (by simp) (by simp) (by simp)
  have hcomplete : ∀ p, p < ps.length → p ∈ st'.used := by
    intro p hp
    have hvmem : ps.getD p default ∈ ps := by
      rw [List.getD_eq_getElem?_getD, List.getElem?_eq_getElem hp]
      simp
    exact hI4 p hp (hprog (ps.getD p default) hvmem)
  have hperm_used : List.Perm st'.used (List.range ps.length) := by
    rw [List.perm_ext_iff_of_nodup hI1 (List.nodup_range _)]
    intro a
    constructor
    · intro ha
      exact List.mem_range.mpr (hI2 a ha)
    · intro ha
      exact hcomplete a (List.mem_range.mp ha)
  refine ⟨st'.groups, ?_, ?_⟩
  · unfold process_category
    rw [if_neg hbs, batches_fold_eq, chunksF_flatten ps.length (min 1000 ps.length) ps
      (by omega) (Nat.le_refl _), hfold]
  · rw [hI3]
    have h1 : List.Perm (st'.used.map (getL ps))
        ((List.range ps.length).map (getL ps)) := hperm_used.map _
    have h2 : (List.range ps.length).map (getL ps) = ps := range_map_getD default ps
    rw [h2] at h1
    exact h1

theorem mapM_categories_ok (θ : ℚ) (hθ : θ ≤ 1) :
    ∀ (cats : List (String × List Listing)),
      (∀ cp ∈ cats, cp.2 ≠ ([] : List Listing)) →
      (∀ cp ∈ cats, ∀ l ∈ cp.2, (normalize_title_text l.title).data ≠ []) →
      ∃ rss, cats.mapM (fun cp => process_category θ cp.2) = .ok rss ∧
        List.Perm rss.flatten.flatten (cats.map Prod.snd).flatten := by
  intro cats
  induction cats with
  | nil => intro _ _; exact ⟨[], rfl, by simp⟩
  | cons cp rest ih =>
    intro h1 h2
    obtain ⟨gs, hgs, hperm1⟩ := process_category_ok θ hθ cp.2
      (h1 cp (List.mem_cons_self _ _)) (h2 cp (List.mem_cons_self _ _))
    obtain ⟨rss, hrss, hperm2⟩ := ih
      (fun c hc => h1 c (List.mem_cons_of_mem _ hc))
      (fun c hc => h2 c (List.mem_cons_of_mem _ hc))
    refine ⟨gs :: rss, ?_, ?_⟩
    · rw [List.mapM_cons, hgs, hrss]
      rfl
    · simp only [List.flatten_cons, List.flatten_append, List.map_cons]
      exact hperm1.append hperm2

/-- C2 amended: under the serialized schedule, with a threshold of at most 1,
every category nonempty, and every listing's normalized title nonempty,
`group_products_by_similarity` returns groups whose concatenation contains
every input listing exactly once (a permutation of the input).  Without those
provisos the call can raise instead of returning (see the counterexample). -/
theorem grouping_partitions_under_serial_schedule
    (θ : ℚ) (hθ : θ ≤ 1) (cats : List (String × List Listing))
    (hne : ∀ cp ∈ cats, cp.2 ≠ ([] : List Listing))
    (htitles : ∀ cp ∈ cats, ∀ l ∈ cp.2, (normalize_title_text l.title).data ≠ []) :
    ∃ gs, group_products_by_similarity θ cats = .ok gs ∧
      List.Perm gs.flatten (cats.map Prod.snd).flatten := by
  obtain ⟨rss, hrss, hperm⟩ := mapM_categories_ok θ hθ cats hne htitles
  refine ⟨rss.flatten, ?_, hperm⟩
  unfold group_products_by_similarity
  rw [hrss]

/-- Witness for `grouping_partitions_under_serial_schedule` on a one-category,
one-listing input. -/
theorem grouping_partitions_under_serial_schedule_witness :
    ∃ gs, group_products_by_similarity 1 [("c", [demoListingA])] = .ok gs ∧
      List.Perm gs.flatten ([("c", [demoListingA])].map Prod.snd).flatten :=
  grouping_partitions_under_serial_schedule 1 (le_refl 1) [("c", [demoListingA])]
    (by decide) (by decide)

/-- C2 counterexample: on a listing whose normalized title is empty, the
candidate prefilter evaluates `abs(len_i - len_j) / max(len_i, len_j)` with
`max(0, 0) = 0` and raises `ZeroDivisionError` — the call raises instead of
returning a grouping, refuting the for-every-input claim. -/
theorem grouping_raises_on_empty_title :
    group_products_by_similarity (95 / 100 : ℚ)
      [("입호흡", [⟨"", 0, "u", "", "s", "입호흡"⟩])] = .error () := rfl
